import Mathlib

/-!
Verification of the `arch_guard` scanning engine (`scripts/arch_guard.py`).

The development shallowly embeds the algorithmic core of the tool:

* `strip_rust_comments` — the comment/string-aware tokenizer producing a
  line-structure preserving projection of a source file (`stripGoF`,
  `stripRust`);
* `find_matches` — the per-rule content matcher with its exclusion policy;
* `scan_line_limits` — the per-file physical-line-count ceiling rule;
* `scan_solver_typedata_quarantine` — the alias-tracking quarantine scanner;
* the verdict aggregation and exit-code logic of `main`.

Python strings are embedded as `List Char`; machine integers are `Nat`
(no overflow is possible in the source: all integers are indices/counters).
Regular expressions from the source are embedded as executable recognizers
specialised to the concrete patterns appearing in the code.  File-system
enumeration (`iter_rs_files`) is abstracted as an explicit corpus:
a list of `(relative path, file text)` pairs.
-/

namespace ArchGuard

/-- The scanner states of `strip_rust_comments` (`state` variable plus the
`block_depth` / `raw_hash_count` counters, which are only meaningful in the
corresponding states and are always reset on entry). -/
inductive ScanState where
  | code
  | lineComment
  | blockComment (depth : Nat)
  | stringLit
  | charLit
  | rawString (hashes : Nat)
deriving DecidableEq, Repr

/-- Length of the maximal run of `'#'` characters at the head of the list
(the unbounded `while chars[j] == "#"` loop used when a raw-string opener is
probed). -/
def countHashes : List Char → Nat
  | [] => 0
  | c :: rest => if c = '#' then countHashes rest + 1 else 0

/-- Length of the maximal run of `'#'` characters at the head of the list,
capped at `bound` (the `while ... and hashes < raw_hash_count` loop used when
a raw-string closing fence is probed). -/
def countHashesUpTo : Nat → List Char → Nat
  | 0, _ => 0
  | _ + 1, [] => 0
  | bound + 1, c :: rest => if c = '#' then countHashesUpTo bound rest + 1 else 0

/-- The main loop of `strip_rust_comments`, embedded with explicit fuel so
that the definition is structurally recursive and computable by the kernel.
Each loop iteration of the Python code consumes at least one input character,
so `fuel = input length` always suffices (`stripRust` below passes exactly
that). -/
def stripGoF : Nat → ScanState → List Char → List Char
  | 0, _, _ => []
  | fuel + 1, s, t =>
    match s, t with
    | _, [] => []
    | .lineComment, '\n' :: rest => '\n' :: stripGoF fuel .code rest
    | .lineComment, _ :: rest => ' ' :: stripGoF fuel .lineComment rest
    | .blockComment d, '/' :: '*' :: rest =>
        ' ' :: ' ' :: stripGoF fuel (.blockComment (d + 1)) rest
    | .blockComment d, '*' :: '/' :: rest =>
        ' ' :: ' ' ::
          (if d = 1 then stripGoF fuel .code rest
           else stripGoF fuel (.blockComment (d - 1)) rest)
    | .blockComment d, c :: rest =>
        (if c = '\n' then '\n' else ' ') :: stripGoF fuel (.blockComment d) rest
    | .stringLit, '\\' :: c :: rest => '\\' :: c :: stripGoF fuel .stringLit rest
    | .stringLit, '"' :: rest => '"' :: stripGoF fuel .code rest
    | .stringLit, c :: rest => c :: stripGoF fuel .stringLit rest
    | .charLit, '\\' :: c :: rest => '\\' :: c :: stripGoF fuel .charLit rest
    | .charLit, '\'' :: rest => '\'' :: stripGoF fuel .code rest
    | .charLit, c :: rest => c :: stripGoF fuel .charLit rest
    | .rawString 0, '"' :: rest => '"' :: stripGoF fuel .code rest
    | .rawString (k + 1), '"' :: rest =>
        if countHashesUpTo (k + 1) rest = k + 1 then
          '"' :: (List.replicate (k + 1) '#' ++ stripGoF fuel .code (rest.drop (k + 1)))
        else
          '"' :: stripGoF fuel (.rawString (k + 1)) rest
    | .rawString k, c :: rest => c :: stripGoF fuel (.rawString k) rest
    | .code, '/' :: '/' :: rest => ' ' :: ' ' :: stripGoF fuel .lineComment rest
    | .code, '/' :: '*' :: rest => ' ' :: ' ' :: stripGoF fuel (.blockComment 1) rest
    | .code, '"' :: rest => '"' :: stripGoF fuel .stringLit rest
    | .code, '\'' :: rest => '\'' :: stripGoF fuel .charLit rest
    | .code, 'r' :: rest =>
        let h := countHashes rest
        if (rest.drop h).head? = some '"' then
          'r' :: (List.replicate h '#' ++ '"' ::
            stripGoF fuel (.rawString h) (rest.drop (h + 1)))
        else
          'r' :: stripGoF fuel .code rest
    | .code, c :: rest => c :: stripGoF fuel .code rest

/-- Run the scanner from a given state on a whole input. -/
def stripFrom (s : ScanState) (t : List Char) : List Char :=
  stripGoF t.length s t

/-- `strip_rust_comments` on character lists: scan the whole input starting
in the `code` state. -/
def stripRust (t : List Char) : List Char :=
  stripFrom .code t

/-- `strip_rust_comments` itself, on `String`. -/
def strip_rust_comments (text : String) : String :=
  String.mk (stripRust text.data)

/-- Pointwise relation between the scanner's output and its input: every
output character is either the input character at the same position, or a
blank `' '` replacing a non-newline input character. -/
inductive Blankish : List Char → List Char → Prop
  | nil : Blankish [] []
  | keep (c : Char) {o i : List Char} : Blankish o i → Blankish (c :: o) (c :: i)
  | blank {c : Char} {o i : List Char} :
      c ≠ '\n' → Blankish o i → Blankish (' ' :: o) (c :: i)

/-- Python's `text.count("\n", 0, p) + 1`: the 1-based line number of
character position `p` in `text` (the computation used by the quarantine
scanner to report lines). -/
def lineOfPos (text : List Char) (p : Nat) : Nat :=
  (text.take p).count '\n' + 1

/-- The scanner states that can occur outside comments: blanking happens only
in the two comment states. -/
def NonCommentState : ScanState → Prop
  | .lineComment => False
  | .blockComment _ => False
  | _ => True

/-- How the scanner rewrites a character strictly inside a comment:
newlines survive, everything else becomes a space. -/
def blankComment (c : Char) : Char := if c = '\n' then '\n' else ' '

/-- The state in which a second scanner pass reads the output produced from
state `s`: comment interiors are blanked to code-neutral spaces, every other
state reproduces itself. -/
def pass2State : ScanState → ScanState
  | .code => .code
  | .lineComment => .code
  | .blockComment _ => .code
  | .stringLit => .stringLit
  | .charLit => .charLit
  | .rawString k => .rawString k

/-- The whitespace characters honoured by Python's `str.lstrip()` /
`str.split()` (restricted to ASCII whitespace, the only whitespace relevant
to the scanned sources). -/
def isPySpace (c : Char) : Bool :=
  c == ' ' || c == '\t' || c == '\n' || c == '\r' || c == '\x0b' || c == '\x0c'

/-- Python `str.splitlines()`, restricted to `'\n'` line terminators
(the tool reads LF-separated source files): accumulate the current line in
`acc` (reversed) and close it at each newline; a trailing newline does not
open an extra empty line. -/
def pySplitlinesGo : List Char → List Char → List (List Char)
  | acc, [] => if acc = [] then [] else [acc.reverse]
  | acc, c :: rest =>
    if c = '\n' then acc.reverse :: pySplitlinesGo [] rest
    else pySplitlinesGo (c :: acc) rest

def pySplitlines (t : List Char) : List (List Char) :=
  pySplitlinesGo [] t

/-- Python `text.split(sep)` for a one-character separator: every maximal
separator-free chunk, empty chunks included (`acc` holds the current chunk
reversed). -/
def pySplitSep (sep : Char) : List Char → List Char → List (List Char)
  | acc, [] => [acc.reverse]
  | acc, c :: rest =>
    if c = sep then acc.reverse :: pySplitSep sep [] rest
    else pySplitSep sep (c :: acc) rest

/-- The path segments of a `/`-separated relative path (`rel.split("/")`). -/
def pathSegments (rel : String) : List String :=
  (pySplitSep '/' [] rel.data).map String.mk

/-- Python `line.lstrip()`. -/
def pyLstrip (l : List Char) : List Char := l.dropWhile isPySpace

/-- The per-rule exclusion policy dictionary of `CHECKS`
(`exclude_files`, `exclude_dirs`, `ignore_comment_lines`). -/
structure Excludes where
  exclude_files : List String
  exclude_dirs : List String
  ignore_comment_lines : Bool

/-- `find_matches`: evaluate one content rule against one file's text.
The compiled regex is abstracted as the line predicate `pattern`
(`pattern.search(line)` succeeding); `rel` is the file's relative path
as a `/`-separated string. -/
def find_matches (file_text : List Char) (pattern : List Char → Bool)
    (rel : String) (excludes : Excludes) : List Nat :=
  if rel ∈ excludes.exclude_files then []
  else if excludes.exclude_dirs ≠ [] ∧
      (pathSegments rel).any (fun seg => excludes.exclude_dirs.contains seg) then []
  else
    (pySplitlines file_text).enum.filterMap (fun pr =>
      if excludes.ignore_comment_lines && List.isPrefixOf ['/', '/'] (pyLstrip pr.2) then
        none
      else if pattern pr.2 then some (pr.1 + 1) else none)

/-- Substring search: does `pat` occur contiguously in `l`?  (An executable
stand-in for a regex whose pattern is a plain literal.) -/
def containsSub (pat l : List Char) : Bool :=
  (List.range (l.length + 1)).any (fun p => List.isPrefixOf pat (l.drop p))

/-- The number of lines Python's file-handle iteration counts for a text:
lines are `'\n'`-terminated chunks, plus a final unterminated chunk if the
text does not end in a newline. -/
def pyLineCount (t : List Char) : Nat :=
  t.count '\n' + (if t ≠ [] ∧ t.getLast? ≠ some '\n' then 1 else 0)

/-- `scan_line_limits`: one hit per file whose physical line count strictly
exceeds `limit`, annotated with the count and the ceiling.  The corpus is the
list of `(relative path, text)` pairs produced by `iter_rs_files`. -/
def scan_line_limits (corpus : List (String × List Char)) (limit : Nat) : List String :=
  corpus.flatMap (fun pr =>
    if pyLineCount pr.2 > limit then
      [pr.1 ++ ":" ++ toString (pyLineCount pr.2) ++ " lines (limit " ++ toString limit ++ ")"]
    else [])

/-- The report payload built by `main`: `status`, `total_hits`, `failures`
(name and hit list per failing check, in configuration order). -/
structure Verdict where
  status : String
  total_hits : Nat
  failures : List (String × List String)

/-- The aggregation loop of `main`: `results` is the ordered list of
`(check name, hits)` pairs produced by the checks whose base exists
(content checks, then manifest checks, then line-limit checks, then the
quarantine scan).  Every check adds `len(hits)` to `total_hits`; only checks
with a non-empty hit list are appended to `failures`; `status` is `"failed"`
exactly when `failures` is non-empty. -/
def aggregate (results : List (String × List String)) : Verdict :=
  { status := if (results.filter (fun r => !r.2.isEmpty)).isEmpty then "passed" else "failed"
    total_hits := (results.map (fun r => r.2.length)).sum
    failures := results.filter (fun r => !r.2.isEmpty) }

/-- Exit code of the `--json` presentation mode (`return 0 if not failures else 1`). -/
def jsonModeExit (v : Verdict) : Nat := if v.failures.isEmpty then 0 else 1

/-- Exit code of the human-readable presentation mode
(`return 1` under `if failures:`, `return 0` otherwise). -/
def humanModeExit (v : Verdict) : Nat := if v.failures.isEmpty then 0 else 1

/-- The `\w` character class of the scanner's regexes (ASCII letters, digits
and underscore; the scanned sources are ASCII-identifier Rust). -/
def isREWordChar (c : Char) : Bool := c.isAlpha || c.isDigit || c == '_'

/-- Consume an exact literal prefix, returning the remainder on success. -/
def eatLit : List Char → List Char → Option (List Char)
  | [], rest => some rest
  | _ :: _, [] => none
  | c :: cs, d :: rest => if d = c then eatLit cs rest else none

/-- `\.intern\s*\(\s*(?:crate::types::TypeData|tsz_solver::TypeData|TypeData)\s*::`
(the `direct_intern_re` of the quarantine scanner) matched against a suffix:
the alternation's branches start with pairwise distinct characters and no
branch is followed by a character that `\s*` could reclaim, so the greedy
reading embedded here is exact. -/
def matchDirectIntern (l : List Char) : Option (List Char) :=
  match eatLit ".intern".data l with
  | none => none
  | some r1 =>
    match eatLit "(".data (r1.dropWhile isPySpace) with
    | none => none
    | some r2 =>
      let r2w := r2.dropWhile isPySpace
      match (eatLit "crate::types::TypeData".data r2w <|>
          eatLit "tsz_solver::TypeData".data r2w <|>
          eatLit "TypeData".data r2w) with
      | none => none
      | some r3 => eatLit "::".data (r3.dropWhile isPySpace)

/-- `rf"\.intern\s*\(\s*{re.escape(alias)}\s*::"` (the per-alias
`alias_re_intern`) matched against a suffix. -/
def matchAliasIntern (aliasName : List Char) (l : List Char) : Option (List Char) :=
  match eatLit ".intern".data l with
  | none => none
  | some r1 =>
    match eatLit "(".data (r1.dropWhile isPySpace) with
    | none => none
    | some r2 =>
      match eatLit aliasName (r2.dropWhile isPySpace) with
      | none => none
      | some r3 => eatLit "::".data (r3.dropWhile isPySpace)

/-- Lift a suffix matcher to a positional matcher reporting the match's end
position (`match.end()`). -/
def atPos (m : List Char → Option (List Char)) (s : List Char) (p : Nat) :
    Option (Unit × Nat) :=
  match m (s.drop p) with
  | none => none
  | some r => some ((), s.length - r.length)

/-- `\bTypeData\s+as\s+([A-Za-z_]\w*)\b` (the rename-import `alias_re`)
at position `p` of `s`: the leading word boundary inspects the character
before `p`; the trailing `\b` holds automatically after a maximal `\w*`.
Returns the captured alias and the match's end position. -/
def matchAliasImport (s : List Char) (p : Nat) : Option (List Char × Nat) :=
  if p ≠ 0 && isREWordChar (s.getD (p - 1) ' ') then none
  else
    match eatLit "TypeData".data (s.drop p) with
    | none => none
    | some r1 =>
      let r1w := r1.dropWhile isPySpace
      if r1w.length == r1.length then none
      else
        match eatLit "as".data r1w with
        | none => none
        | some r2 =>
          let r2w := r2.dropWhile isPySpace
          if r2w.length == r2.length then none
          else
            match r2w.head? with
            | none => none
            | some c =>
              if c.isAlpha || c == '_' then
                let g := r2w.takeWhile isREWordChar
                some (g, s.length - (r2w.length - g.length))
              else none

/-- `\btype\s+([A-Za-z_]\w*)\s*=\s*[^;]*\bTypeData\b[^;]*;`
(the `type_alias_re`) at position `p` of `s`; the two `[^;]*` gaps are
resolved by an explicit bounded search for a word-bounded `TypeData`
occurrence followed by a `;`, which matches the regex engine's backtracking
semantics.  Returns the captured left-hand alias name. -/
def matchTypeAliasAt (s : List Char) (p : Nat) : Option (List Char) :=
  if p ≠ 0 && isREWordChar (s.getD (p - 1) ' ') then none
  else
    match eatLit "type".data (s.drop p) with
    | none => none
    | some r1 =>
      let r1w := r1.dropWhile isPySpace
      if r1w.length == r1.length then none
      else
        match r1w.head? with
        | none => none
        | some c =>
          if !(c.isAlpha || c == '_') then none
          else
            let g := r1w.takeWhile isREWordChar
            let r2 := r1w.drop g.length
            match eatLit "=".data (r2.dropWhile isPySpace) with
            | none => none
            | some r3 =>
              let r3w := r3.dropWhile isPySpace
              let base := s.length - r3w.length
              if (List.range (r3w.length + 1)).any (fun i =>
                  (r3w.take i).all (fun d => d != ';') &&
                  (match eatLit "TypeData".data (r3w.drop i) with
                   | none => false
                   | some rr =>
                     !(isREWordChar (s.getD (base + i - 1) ' ')) &&
                     (match rr.head? with
                      | none => false
                      | some d => !(isREWordChar d) && rr.contains ';'))) then
                some g
              else none

/-- `re.finditer`: scan positions left to right, collecting matches and
resuming after each match's end (non-overlapping semantics); a zero-width
match advances by one position, as in Python.  `fuel` bounds the iteration
count; `s.length + 1` always suffices. -/
def finditerGo (m : List Char → Nat → Option (α × Nat)) (s : List Char) :
    Nat → Nat → List (Nat × α)
  | 0, _ => []
  | fuel + 1, p =>
    if p < s.length then
      match m s p with
      | some (a, e) =>
        if p < e then (p, a) :: finditerGo m s fuel e
        else (p, a) :: finditerGo m s fuel (p + 1)
      | none => finditerGo m s fuel (p + 1)
    else []

def finditer (m : List Char → Nat → Option (α × Nat)) (s : List Char) :
    List (Nat × α) :=
  finditerGo m s (s.length + 1) 0

/-- Python `statement.split()`: maximal whitespace-free words. -/
def pySplitWS : List Char → List Char → List (List Char)
  | acc, [] => if acc = [] then [] else [acc.reverse]
  | acc, c :: rest =>
    if isPySpace c then
      if acc = [] then pySplitWS [] rest else acc.reverse :: pySplitWS [] rest
    else pySplitWS (c :: acc) rest

/-- `" ".join(statement.split())`: collapse all whitespace runs to single
spaces and trim both ends. -/
def pyNormalize (l : List Char) : List Char :=
  List.intercalate [' '] (pySplitWS [] l)

def SOLVER_TYPEDATA_QUARANTINE_ALLOWLIST : List String :=
  ["crates/tsz-solver/src/intern.rs",
   "crates/tsz-solver/src/intern_intersection.rs",
   "crates/tsz-solver/src/intern_normalize.rs",
   "crates/tsz-solver/src/intern_template.rs"]

/-- Add an alias to the accumulated alias set (Python `set.add`). -/
def insertAlias (acc : List (List Char)) (a : List Char) : List (List Char) :=
  if a ∈ acc then acc else acc ++ [a]

/-- The alias-collection phase of the quarantine scanner: the canonical name,
every rename-import alias, and every local type alias whose right-hand side
mentions the canonical name (statements are split on `;` and
whitespace-normalized before the type-alias regex is applied). -/
def collectAliases (twc : List Char) : List (List Char) :=
  let fromImports := (finditer matchAliasImport twc).map (fun pr => pr.2)
  let fromTypes := (pySplitSep ';' [] twc).filterMap
    (fun st => (List.range ((pyNormalize st ++ [';']).length + 1)).findSome?
      (fun p => matchTypeAliasAt (pyNormalize st ++ [';']) p))
  (("TypeData".data :: fromImports) ++ fromTypes).foldl insertAlias []

/-- File-skip test of the quarantine scanner:
`"/tests/" in rel or any(rel.endswith(allow) for allow in ...)`. -/
def quarantineSkip (rel : String) : Bool :=
  containsSub "/tests/".data rel.data ||
  SOLVER_TYPEDATA_QUARANTINE_ALLOWLIST.any
    (fun allow => List.isSuffixOf allow.data rel.data)

/-- The hits one scanned file contributes: the direct pass plus one pass per
non-canonical alias, each hit rendered as `"{rel}:{line}"` with the line
computed by counting newlines in the projection before the match start. -/
def quarantineFileHits (rel : String) (text : List Char) : List String :=
  let twc := stripRust text
  let direct := (finditer (atPos matchDirectIntern) twc).map
    (fun pr => rel ++ ":" ++ toString (lineOfPos twc pr.1))
  let aliased := ((collectAliases twc).filter
      (fun a => a != "TypeData".data)).flatMap
    (fun a => (finditer (atPos (matchAliasIntern a)) twc).map
      (fun pr => rel ++ ":" ++ toString (lineOfPos twc pr.1)))
  direct ++ aliased

/-- Code-point lexicographic comparison of character lists: exactly the
string order used by Python's `sorted` on `str` (and the order underlying
Lean's `String` linear order, see `charListLt_iff_lex` below). -/
def charListLt : List Char → List Char → Bool
  | [], [] => false
  | [], _ :: _ => true
  | _ :: _, [] => false
  | a :: as, b :: bs =>
    if a < b then true else if b < a then false else charListLt as bs

/-- The (decidable, kernel-computable) string order `a ≤ b` used to model
`sorted(hits)`. -/
def strLeRel (a b : String) : Prop :=
  (charListLt a.data b.data || a == b) = true

instance : DecidableRel strLeRel := fun a b => by unfold strLeRel; infer_instance

/-- `scan_solver_typedata_quarantine`: collect the per-file hits of every
non-skipped file of the corpus into a set and return them sorted
(`sorted(hits)`; on a duplicate-free list every correct sort produces
Python's result, and insertion sort is kernel-computable). -/
def scan_solver_typedata_quarantine (corpus : List (String × List Char)) :
    List String :=
  List.insertionSort strLeRel
    ((corpus.flatMap (fun pr =>
      if quarantineSkip pr.1 then [] else quarantineFileHits pr.1 pr.2)).dedup)

/-- The scanner emits nothing on empty input, whatever the fuel. -/
theorem stripGoF_nil (f : Nat) (s : ScanState) : stripGoF f s [] = [] := by
  cases f <;> simp [stripGoF]

/-- Fuel does not matter as long as it is at least the input length:
each loop iteration consumes at least one character. -/
theorem stripGoF_fuel_congr :
    ∀ (f₁ : Nat) (s : ScanState) (t : List Char), t.length ≤ f₁ →
      ∀ f₂, t.length ≤ f₂ → stripGoF f₁ s t = stripGoF f₂ s t := by
  intro f₁ s t
  induction f₁, s, t using stripGoF.induct with
  | case1 s t =>
    intro h f₂ h₂
    have ht : t = [] := List.length_eq_zero.mp (Nat.le_zero.mp h)
    subst ht
    simp [stripGoF, stripGoF_nil]
  | case2 fuel s =>
    intro h f₂ h₂
    simp [stripGoF, stripGoF_nil]
  | case3 fuel rest ih =>
    intro h f₂ h₂
    obtain ⟨f, rfl⟩ : ∃ f, f₂ = f + 1 := ⟨f₂ - 1, by simp at h₂; omega⟩
    simp only [stripGoF]
    rw [ih (by simp at h; omega) f (by simp at h₂; omega)]
  | case4 fuel c rest hc ih =>
    intro h f₂ h₂
    obtain ⟨f, rfl⟩ : ∃ f, f₂ = f + 1 := ⟨f₂ - 1, by simp at h₂; omega⟩
    simp only [stripGoF, hc]
    rw [ih (by simp at h; omega) f (by simp at h₂; omega)]
  | case5 fuel d rest ih =>
    intro h f₂ h₂
    obtain ⟨f, rfl⟩ : ∃ f, f₂ = f + 1 := ⟨f₂ - 1, by simp at h₂; omega⟩
    simp only [stripGoF]
    rw [ih (by simp at h; omega) f (by simp at h₂; omega)]
  | case6 fuel d rest ih₁ ih₂ =>
    intro h f₂ h₂
    obtain ⟨f, rfl⟩ : ∃ f, f₂ = f + 1 := ⟨f₂ - 1, by simp at h₂; omega⟩
    simp only [stripGoF]
    split_ifs
    · rw [ih₁ (by simp at h; omega) f (by simp at h₂; omega)]
    · rw [ih₂ (by simp at h; omega) f (by simp at h₂; omega)]
  | case7 fuel d c rest h1 h2 ih =>
    intro h f₂ h₂
    obtain ⟨f, rfl⟩ : ∃ f, f₂ = f + 1 := ⟨f₂ - 1, by simp at h₂; omega⟩
    simp only [stripGoF, h1, h2]
    rw [ih (by simp at h; omega) f (by simp at h₂; omega)]
  | case8 fuel c rest ih =>
    intro h f₂ h₂
    obtain ⟨f, rfl⟩ : ∃ f, f₂ = f + 1 := ⟨f₂ - 1, by simp at h₂; omega⟩
    simp only [stripGoF]
    rw [ih (by simp at h; omega) f (by simp at h₂; omega)]
  | case9 fuel rest ih =>
    intro h f₂ h₂
    obtain ⟨f, rfl⟩ : ∃ f, f₂ = f + 1 := ⟨f₂ - 1, by simp at h₂; omega⟩
    simp only [stripGoF]
    rw [ih (by simp at h; omega) f (by simp at h₂; omega)]
  | case10 fuel c rest h1 h2 ih =>
    intro h f₂ h₂
    obtain ⟨f, rfl⟩ : ∃ f, f₂ = f + 1 := ⟨f₂ - 1, by simp at h₂; omega⟩
    simp only [stripGoF, h1, h2]
    rw [ih (by simp at h; omega) f (by simp at h₂; omega)]
  | case11 fuel c rest ih =>
    intro h f₂ h₂
    obtain ⟨f, rfl⟩ : ∃ f, f₂ = f + 1 := ⟨f₂ - 1, by simp at h₂; omega⟩
    simp only [stripGoF]
    rw [ih (by simp at h; omega) f (by simp at h₂; omega)]
  | case12 fuel rest ih =>
    intro h f₂ h₂
    obtain ⟨f, rfl⟩ : ∃ f, f₂ = f + 1 := ⟨f₂ - 1, by simp at h₂; omega⟩
    simp only [stripGoF]
    rw [ih (by simp at h; omega) f (by simp at h₂; omega)]
  | case13 fuel c rest h1 h2 ih =>
    intro h f₂ h₂
    obtain ⟨f, rfl⟩ : ∃ f, f₂ = f + 1 := ⟨f₂ - 1, by simp at h₂; omega⟩
    simp only [stripGoF, h1, h2]
    rw [ih (by simp at h; omega) f (by simp at h₂; omega)]
  | case14 fuel rest ih =>
    intro h f₂ h₂
    obtain ⟨f, rfl⟩ : ∃ f, f₂ = f + 1 := ⟨f₂ - 1, by simp at h₂; omega⟩
    simp only [stripGoF]
    rw [ih (by simp at h; omega) f (by simp at h₂; omega)]
  | case15 fuel k rest hk ih =>
    intro h f₂ h₂
    obtain ⟨f, rfl⟩ : ∃ f, f₂ = f + 1 := ⟨f₂ - 1, by simp at h₂; omega⟩
    simp only [stripGoF, hk, if_pos]
    rw [ih (by simp only [List.length_cons, List.length_drop] at h ⊢; omega)
          f (by simp only [List.length_cons, List.length_drop] at h₂ ⊢; omega)]
  | case16 fuel k rest hk ih =>
    intro h f₂ h₂
    obtain ⟨f, rfl⟩ : ∃ f, f₂ = f + 1 := ⟨f₂ - 1, by simp at h₂; omega⟩
    simp only [stripGoF, if_neg hk]
    rw [ih (by simp at h; omega) f (by simp at h₂; omega)]
  | case17 fuel k c rest h1 h2 ih =>
    intro h f₂ h₂
    obtain ⟨f, rfl⟩ : ∃ f, f₂ = f + 1 := ⟨f₂ - 1, by simp at h₂; omega⟩
    simp only [stripGoF, h1, h2]
    rw [ih (by simp at h; omega) f (by simp at h₂; omega)]
  | case18 fuel rest ih =>
    intro h f₂ h₂
    obtain ⟨f, rfl⟩ : ∃ f, f₂ = f + 1 := ⟨f₂ - 1, by simp at h₂; omega⟩
    simp only [stripGoF]
    rw [ih (by simp at h; omega) f (by simp at h₂; omega)]
  | case19 fuel rest ih =>
    intro h f₂ h₂
    obtain ⟨f, rfl⟩ : ∃ f, f₂ = f + 1 := ⟨f₂ - 1, by simp at h₂; omega⟩
    simp only [stripGoF]
    rw [ih (by simp at h; omega) f (by simp at h₂; omega)]
  | case20 fuel rest ih =>
    intro h f₂ h₂
    obtain ⟨f, rfl⟩ : ∃ f, f₂ = f + 1 := ⟨f₂ - 1, by simp at h₂; omega⟩
    simp only [stripGoF]
    rw [ih (by simp at h; omega) f (by simp at h₂; omega)]
  | case21 fuel rest ih =>
    intro h f₂ h₂
    obtain ⟨f, rfl⟩ : ∃ f, f₂ = f + 1 := ⟨f₂ - 1, by simp at h₂; omega⟩
    simp only [stripGoF]
    rw [ih (by simp at h; omega) f (by simp at h₂; omega)]
  | case22 fuel rest hv hq ih =>
    intro h f₂ h₂
    obtain ⟨f, rfl⟩ : ∃ f, f₂ = f + 1 := ⟨f₂ - 1, by simp at h₂; omega⟩
    simp only [stripGoF]
    rw [if_pos hq, if_pos hq]
    rw [ih (by simp only [List.length_cons, List.length_drop] at h ⊢; omega)
          f (by simp only [List.length_cons, List.length_drop] at h₂ ⊢; omega)]
  | case23 fuel rest hv hq ih =>
    intro h f₂ h₂
    obtain ⟨f, rfl⟩ : ∃ f, f₂ = f + 1 := ⟨f₂ - 1, by simp at h₂; omega⟩
    simp only [stripGoF]
    rw [if_neg hq, if_neg hq]
    rw [ih (by simp at h; omega) f (by simp at h₂; omega)]
  | case24 fuel c rest h1 h2 h3 h4 h5 ih =>
    intro h f₂ h₂
    obtain ⟨f, rfl⟩ : ∃ f, f₂ = f + 1 := ⟨f₂ - 1, by simp at h₂; omega⟩
    simp only [stripGoF, h1, h2, h3, h4, h5]
    rw [ih (by simp at h; omega) f (by simp at h₂; omega)]

theorem Blankish.append_same {o i : List Char} (xs : List Char) (h : Blankish o i) :
    Blankish (xs ++ o) (xs ++ i) := by
  induction xs with
  | nil => simpa using h
  | cons c xs ih => exact Blankish.keep c ih

theorem countHashes_take (t : List Char) :
    t.take (countHashes t) = List.replicate (countHashes t) '#' := by
  induction t with
  | nil => simp [countHashes]
  | cons c rest ih =>
    by_cases hc : c = '#'
    · subst hc
      simp [countHashes, List.replicate_succ, ih]
    · simp [countHashes, hc]

theorem countHashesUpTo_le (b : Nat) (t : List Char) : countHashesUpTo b t ≤ b := by
  induction b generalizing t with
  | zero => simp [countHashesUpTo]
  | succ b ih =>
    cases t with
    | nil => simp [countHashesUpTo]
    | cons c rest =>
      simp only [countHashesUpTo]
      split
      · exact Nat.succ_le_succ (ih rest)
      · omega

theorem countHashesUpTo_eq_take {b : Nat} {t : List Char}
    (h : countHashesUpTo b t = b) : t.take b = List.replicate b '#' := by
  induction b generalizing t with
  | zero => simp
  | succ b ih =>
    cases t with
    | nil => simp [countHashesUpTo] at h
    | cons c rest =>
      simp only [countHashesUpTo] at h
      by_cases hc : c = '#'
      · subst hc
        simp only [if_pos rfl] at h
        simp [List.replicate_succ, ih (Nat.succ_injective h)]
      · simp [hc] at h

theorem drop_cons_of_head? {l : List Char} {n : Nat} {a : Char}
    (h : (l.drop n).head? = some a) : l.drop n = a :: l.drop (n + 1) := by
  rcases hd : l.drop n with _ | ⟨b, t⟩
  · rw [hd] at h; simp at h
  · rw [hd] at h
    simp only [List.head?_cons, Option.some.injEq] at h
    subst h
    have ht : l.drop (n + 1) = t := by
      rw [← List.tail_drop, hd]
      rfl
    rw [ht]

theorem blankish_stripGoF :
    ∀ (f : Nat) (s : ScanState) (t : List Char), t.length ≤ f →
      Blankish (stripGoF f s t) t := by
  intro f s t
  induction f, s, t using stripGoF.induct with
  | case1 s t =>
    intro h
    have ht : t = [] := List.length_eq_zero.mp (Nat.le_zero.mp h)
    subst ht
    simpa [stripGoF_nil] using Blankish.nil
  | case2 fuel s =>
    intro h
    simpa [stripGoF_nil] using Blankish.nil
  | case3 fuel rest ih =>
    intro h
    simp only [stripGoF]
    exact Blankish.keep _ (ih (by simp at h; omega))
  | case4 fuel c rest hc ih =>
    intro h
    simp only [stripGoF, hc]
    exact Blankish.blank (fun hh => hc hh) (ih (by simp at h; omega))
  | case5 fuel d rest ih =>
    intro h
    simp only [stripGoF]
    exact Blankish.blank (by decide) (Blankish.blank (by decide) (ih (by simp at h; omega)))
  | case6 fuel d rest ih₁ ih₂ =>
    intro h
    simp only [stripGoF]
    split_ifs
    · exact Blankish.blank (by decide) (Blankish.blank (by decide) (ih₁ (by simp at h; omega)))
    · exact Blankish.blank (by decide) (Blankish.blank (by decide) (ih₂ (by simp at h; omega)))
  | case7 fuel d c rest h1 h2 ih =>
    intro h
    simp only [stripGoF, h1, h2]
    by_cases hc : c = '\n'
    · subst hc
      simp only [if_pos rfl]
      exact Blankish.keep _ (ih (by simp at h; omega))
    · simp only [if_neg hc]
      exact Blankish.blank hc (ih (by simp at h; omega))
  | case8 fuel c rest ih =>
    intro h
    simp only [stripGoF]
    exact Blankish.keep _ (Blankish.keep _ (ih (by simp at h; omega)))
  | case9 fuel rest ih =>
    intro h
    simp only [stripGoF]
    exact Blankish.keep _ (ih (by simp at h; omega))
  | case10 fuel c rest h1 h2 ih =>
    intro h
    simp only [stripGoF, h1, h2]
    exact Blankish.keep _ (ih (by simp at h; omega))
  | case11 fuel c rest ih =>
    intro h
    simp only [stripGoF]
    exact Blankish.keep _ (Blankish.keep _ (ih (by simp at h; omega)))
  | case12 fuel rest ih =>
    intro h
    simp only [stripGoF]
    exact Blankish.keep _ (ih (by simp at h; omega))
  | case13 fuel c rest h1 h2 ih =>
    intro h
    simp only [stripGoF, h1, h2]
    exact Blankish.keep _ (ih (by simp at h; omega))
  | case14 fuel rest ih =>
    intro h
    simp only [stripGoF]
    exact Blankish.keep _ (ih (by simp at h; omega))
  | case15 fuel k rest hk ih =>
    intro h
    simp only [stripGoF, hk, if_pos]
    have hr : rest = List.replicate (k + 1) '#' ++ rest.drop (k + 1) := by
      conv_lhs => rw [← List.take_append_drop (k + 1) rest]
      rw [countHashesUpTo_eq_take hk]
    apply Blankish.keep
    conv_rhs => rw [hr]
    exact Blankish.append_same _
      (ih (by simp only [List.length_cons, List.length_drop] at h ⊢; omega))
  | case16 fuel k rest hk ih =>
    intro h
    simp only [stripGoF, if_neg hk]
    exact Blankish.keep _ (ih (by simp at h; omega))
  | case17 fuel k c rest h1 h2 ih =>
    intro h
    simp only [stripGoF, h1, h2]
    exact Blankish.keep _ (ih (by simp at h; omega))
  | case18 fuel rest ih =>
    intro h
    simp only [stripGoF]
    exact Blankish.blank (by decide) (Blankish.blank (by decide) (ih (by simp at h; omega)))
  | case19 fuel rest ih =>
    intro h
    simp only [stripGoF]
    exact Blankish.blank (by decide) (Blankish.blank (by decide) (ih (by simp at h; omega)))
  | case20 fuel rest ih =>
    intro h
    simp only [stripGoF]
    exact Blankish.keep _ (ih (by simp at h; omega))
  | case21 fuel rest ih =>
    intro h
    simp only [stripGoF]
    exact Blankish.keep _ (ih (by simp at h; omega))
  | case22 fuel rest hv hq ih =>
    intro h
    simp only [stripGoF]
    rw [if_pos hq]
    have hr : rest = List.replicate (countHashes rest) '#' ++ '"' :: rest.drop (countHashes rest + 1) := by
      conv_lhs => rw [← List.take_append_drop (countHashes rest) rest]
      rw [countHashes_take, drop_cons_of_head? hq]
    apply Blankish.keep
    conv_rhs => rw [hr]
    exact Blankish.append_same _ (Blankish.keep _
      (ih (by simp only [List.length_cons, List.length_drop] at h ⊢; omega)))
  | case23 fuel rest hv hq ih =>
    intro h
    simp only [stripGoF]
    rw [if_neg hq]
    exact Blankish.keep _ (ih (by simp at h; omega))
  | case24 fuel c rest h1 h2 h3 h4 h5 ih =>
    intro h
    simp only [stripGoF, h1, h2, h3, h4, h5]
    exact Blankish.keep _ (ih (by simp at h; omega))

theorem Blankish.length_eq {o i : List Char} (h : Blankish o i) : o.length = i.length := by
  induction h <;> simp [*]

theorem Blankish.getElem?_newline {o i : List Char} (h : Blankish o i) :
    ∀ p : Nat, o[p]? = some '\n' ↔ i[p]? = some '\n' := by
  induction h with
  | nil => intro p; rfl
  | keep c h ih =>
    intro p
    cases p with
    | zero => simp
    | succ p => simpa using ih p
  | blank hc h ih =>
    intro p
    cases p with
    | zero =>
      simp only [List.getElem?_cons_zero, Option.some.injEq]
      constructor
      · intro hh; exact absurd hh.symm (by decide)
      · intro hh; exact absurd hh hc
    | succ p => simpa using ih p

theorem Blankish.getElem?_keep_or_blank {o i : List Char} (h : Blankish o i) :
    ∀ (p : Nat) (c : Char), o[p]? = some c → i[p]? = some c ∨ c = ' ' := by
  induction h with
  | nil => intro p c hp; simp at hp
  | keep c h ih =>
    intro p d hp
    cases p with
    | zero => simp_all
    | succ p => simpa using ih p d (by simpa using hp)
  | blank hc h ih =>
    intro p d hp
    cases p with
    | zero =>
      right
      simp only [List.getElem?_cons_zero, Option.some.injEq] at hp
      exact hp.symm
    | succ p => simpa using ih p d (by simpa using hp)

theorem Blankish.take {o i : List Char} (h : Blankish o i) :
    ∀ p : Nat, Blankish (o.take p) (i.take p) := by
  induction h with
  | nil => intro p; simpa using Blankish.nil
  | keep c h ih =>
    intro p
    cases p with
    | zero => exact Blankish.nil
    | succ p => simpa using Blankish.keep c (ih p)
  | blank hc h ih =>
    intro p
    cases p with
    | zero => exact Blankish.nil
    | succ p => simpa using Blankish.blank hc (ih p)

theorem Blankish.count_newline {o i : List Char} (h : Blankish o i) :
    o.count '\n' = i.count '\n' := by
  induction h with
  | nil => rfl
  | keep c h ih => simp [List.count_cons, ih]
  | blank hc h ih =>
    simp [List.count_cons, beq_iff_eq, hc, ih]

theorem Blankish.isPrefixOf_transfer {o i : List Char} (h : Blankish o i) :
    ∀ pat : List Char, (∀ c ∈ pat, c ≠ ' ') →
      List.isPrefixOf pat o = true → List.isPrefixOf pat i = true := by
  induction h with
  | nil =>
    intro pat hc hp
    exact hp
  | keep c h ih =>
    intro pat hc hp
    cases pat with
    | nil => rfl
    | cons p pat' =>
      simp only [List.isPrefixOf, Bool.and_eq_true, beq_iff_eq] at hp ⊢
      exact ⟨hp.1, ih pat' (fun d hd => hc d (List.mem_cons_of_mem _ hd)) hp.2⟩
  | blank hc h ih =>
    intro pat hcc hp
    cases pat with
    | nil => rfl
    | cons p pat' =>
      simp only [List.isPrefixOf, Bool.and_eq_true, beq_iff_eq] at hp
      exact absurd hp.1 (hcc p (List.mem_cons_self _ _))

theorem blankish_stripRust (t : List Char) : Blankish (stripRust t) t :=
  blankish_stripGoF _ _ _ le_rfl

/-- C2: the projection produced by `strip_rust_comments` has exactly the
length of the input, has a newline at a character index exactly when the
input has one there, and therefore assigns every character position the same
1-based line number (`lineOfPos`) as the original text. -/
theorem C2_projection_same_length_and_newlines :
    ∀ text : String,
      (strip_rust_comments text).length = text.length ∧
      (∀ p : Nat, (strip_rust_comments text).data[p]? = some '\n' ↔ text.data[p]? = some '\n') ∧
      (∀ p : Nat, lineOfPos (strip_rust_comments text).data p = lineOfPos text.data p) := by
  intro text
  have hb := blankish_stripRust text.data
  refine ⟨?_, ?_, ?_⟩
  · show (stripRust text.data).length = text.data.length
    exact hb.length_eq
  · intro p
    exact hb.getElem?_newline p
  · intro p
    unfold lineOfPos
    show (((stripRust text.data).take p).count '\n') + 1 = _
    rw [(hb.take p).count_newline]

theorem stripGoF_no_slash :
    ∀ (f : Nat) (s : ScanState) (t : List Char), t.length ≤ f →
      NonCommentState s → '/' ∉ t → stripGoF f s t = t := by
  intro f s t
  induction f, s, t using stripGoF.induct with
  | case1 s t =>
    intro h _ _
    have ht : t = [] := List.length_eq_zero.mp (Nat.le_zero.mp h)
    subst ht
    exact stripGoF_nil _ _
  | case2 fuel s => intro _ _ _; exact stripGoF_nil _ _
  | case3 fuel rest ih => intro _ hs _; exact hs.elim
  | case4 fuel c rest hc ih => intro _ hs _; exact hs.elim
  | case5 fuel d rest ih => intro _ hs _; exact hs.elim
  | case6 fuel d rest ih₁ ih₂ => intro _ hs _; exact hs.elim
  | case7 fuel d c rest h1 h2 ih => intro _ hs _; exact hs.elim
  | case8 fuel c rest ih =>
    intro h hs hsl
    simp only [stripGoF]
    rw [ih (by simp at h; omega) trivial (fun hm => hsl (by simp [hm]))]
  | case9 fuel rest ih =>
    intro h hs hsl
    simp only [stripGoF]
    rw [ih (by simp at h; omega) trivial (fun hm => hsl (by simp [hm]))]
  | case10 fuel c rest h1 h2 ih =>
    intro h hs hsl
    simp only [stripGoF, h1, h2]
    rw [ih (by simp at h; omega) trivial (fun hm => hsl (by simp [hm]))]
  | case11 fuel c rest ih =>
    intro h hs hsl
    simp only [stripGoF]
    rw [ih (by simp at h; omega) trivial (fun hm => hsl (by simp [hm]))]
  | case12 fuel rest ih =>
    intro h hs hsl
    simp only [stripGoF]
    rw [ih (by simp at h; omega) trivial (fun hm => hsl (by simp [hm]))]
  | case13 fuel c rest h1 h2 ih =>
    intro h hs hsl
    simp only [stripGoF, h1, h2]
    rw [ih (by simp at h; omega) trivial (fun hm => hsl (by simp [hm]))]
  | case14 fuel rest ih =>
    intro h hs hsl
    simp only [stripGoF]
    rw [ih (by simp at h; omega) trivial (fun hm => hsl (by simp [hm]))]
  | case15 fuel k rest hk ih =>
    intro h hs hsl
    simp only [stripGoF, hk, if_pos]
    have hr : rest = List.replicate (k + 1) '#' ++ rest.drop (k + 1) := by
      conv_lhs => rw [← List.take_append_drop (k + 1) rest]
      rw [countHashesUpTo_eq_take hk]
    rw [ih (by simp only [List.length_cons, List.length_drop] at h ⊢; omega) trivial
        (fun hm => hsl (by rw [List.mem_cons]; right; rw [hr]; exact List.mem_append_right _ hm))]
    conv_rhs => rw [hr]
  | case16 fuel k rest hk ih =>
    intro h hs hsl
    simp only [stripGoF, if_neg hk]
    rw [ih (by simp at h; omega) trivial (fun hm => hsl (by simp [hm]))]
  | case17 fuel k c rest h1 h2 ih =>
    intro h hs hsl
    simp only [stripGoF, h1, h2]
    rw [ih (by simp at h; omega) trivial (fun hm => hsl (by simp [hm]))]
  | case18 fuel rest ih => intro _ _ hsl; exact absurd (by simp) hsl
  | case19 fuel rest ih => intro _ _ hsl; exact absurd (by simp) hsl
  | case20 fuel rest ih =>
    intro h hs hsl
    simp only [stripGoF]
    rw [ih (by simp at h; omega) trivial (fun hm => hsl (by simp [hm]))]
  | case21 fuel rest ih =>
    intro h hs hsl
    simp only [stripGoF]
    rw [ih (by simp at h; omega) trivial (fun hm => hsl (by simp [hm]))]
  | case22 fuel rest hv hq ih =>
    intro h hs hsl
    simp only [stripGoF]
    rw [if_pos hq]
    have hr : rest = List.replicate (countHashes rest) '#' ++ '"' :: rest.drop (countHashes rest + 1) := by
      conv_lhs => rw [← List.take_append_drop (countHashes rest) rest]
      rw [countHashes_take, drop_cons_of_head? hq]
    rw [ih (by simp only [List.length_cons, List.length_drop] at h ⊢; omega) trivial
        (fun hm => hsl (by rw [List.mem_cons]; right; rw [hr]
                           exact List.mem_append_right _ (List.mem_cons_of_mem _ hm)))]
    conv_rhs => rw [hr]
  | case23 fuel rest hv hq ih =>
    intro h hs hsl
    simp only [stripGoF]
    rw [if_neg hq]
    rw [ih (by simp at h; omega) trivial (fun hm => hsl (by simp [hm]))]
  | case24 fuel c rest h1 h2 h3 h4 h5 ih =>
    intro h hs hsl
    simp only [stripGoF, h1, h2, h3, h4, h5]
    rw [ih (by simp at h; omega) trivial (fun hm => hsl (by simp [hm]))]

/-- Counterexample to C1: the claim asserts that every character strictly
inside a string literal is replaced by non-newline whitespace.  The input
`"ab"` is a single string literal; position 1 is strictly inside it, yet the
projection returns the input unchanged and keeps the letter `a` there, which
is not whitespace. -/
theorem C1_counterexample :
    strip_rust_comments "\"ab\"" = "\"ab\"" ∧
    (strip_rust_comments "\"ab\"").data[1]? = some 'a' ∧
    'a'.isWhitespace = false := by
  refine ⟨rfl, rfl, rfl⟩

/-- C1 (amended): `strip_rust_comments` preserves string, character and
raw-string literals verbatim — delimiters and interiors alike — and blanks
only comments, so a pattern can match on text inside a literal interior.
In particular, any input containing no `/` character (hence no comment
opener) is returned entirely unchanged, string interiors included; and in a
text mixing a string literal with a line comment, the literal survives
verbatim while the comment is blanked. -/
theorem C1_amended_literals_preserved :
    (∀ t : List Char, '/' ∉ t → stripRust t = t) ∧
    strip_rust_comments "\"ab\" // cd" = "\"ab\"      " := by
  constructor
  · intro t ht
    exact stripGoF_no_slash _ _ _ le_rfl trivial ht
  · rfl

/-- Witness for `C1_amended_literals_preserved` at the concrete literal
`"ab"`. -/
theorem C1_amended_literals_preserved_witness :
    '/' ∉ "\"ab\"".data ∧ stripRust "\"ab\"".data = "\"ab\"".data :=
  ⟨by decide, C1_amended_literals_preserved.1 "\"ab\"".data (by decide)⟩

theorem stripFrom_eq_stripGoF {f : Nat} (s : ScanState) (t : List Char) (h : t.length ≤ f) :
    stripFrom s t = stripGoF f s t :=
  stripGoF_fuel_congr t.length s t le_rfl f h

theorem sgf_bc_other (f d : Nat) {c : Char} (h1 : c ≠ '/') (h2 : c ≠ '*') (rest : List Char) :
    stripGoF (f + 1) (.blockComment d) (c :: rest) =
      (if c = '\n' then '\n' else ' ') :: stripGoF f (.blockComment d) rest := by
  simp only [stripGoF]
  split <;> simp_all

theorem sf_code_openBlock (rest : List Char) :
    stripFrom .code ('/' :: '*' :: rest) = ' ' :: ' ' :: stripFrom (.blockComment 1) rest := by
  have h1 : stripFrom .code ('/' :: '*' :: rest)
      = ' ' :: ' ' :: stripGoF (rest.length + 1) (.blockComment 1) rest := rfl
  rw [h1, stripGoF_fuel_congr (rest.length + 1) _ rest (by omega) rest.length le_rfl]
  rfl

theorem sf_bc_openBlock (d : Nat) (rest : List Char) :
    stripFrom (.blockComment d) ('/' :: '*' :: rest) =
      ' ' :: ' ' :: stripFrom (.blockComment (d + 1)) rest := by
  have h1 : stripFrom (.blockComment d) ('/' :: '*' :: rest)
      = ' ' :: ' ' :: stripGoF (rest.length + 1) (.blockComment (d + 1)) rest := rfl
  rw [h1, stripGoF_fuel_congr (rest.length + 1) _ rest (by omega) rest.length le_rfl]
  rfl

theorem sf_bc_closeBlock_deep (d : Nat) (hd : d ≠ 1) (rest : List Char) :
    stripFrom (.blockComment d) ('*' :: '/' :: rest) =
      ' ' :: ' ' :: stripFrom (.blockComment (d - 1)) rest := by
  have h1 : stripFrom (.blockComment d) ('*' :: '/' :: rest)
      = ' ' :: ' ' :: (if d = 1 then stripGoF (rest.length + 1) .code rest
          else stripGoF (rest.length + 1) (.blockComment (d - 1)) rest) := rfl
  rw [h1, if_neg hd, stripGoF_fuel_congr (rest.length + 1) _ rest (by omega) rest.length le_rfl]
  rfl

theorem sf_bc_closeBlock_last (rest : List Char) :
    stripFrom (.blockComment 1) ('*' :: '/' :: rest) = ' ' :: ' ' :: stripFrom .code rest := by
  have h1 : stripFrom (.blockComment 1) ('*' :: '/' :: rest)
      = ' ' :: ' ' :: (if 1 = 1 then stripGoF (rest.length + 1) .code rest
          else stripGoF (rest.length + 1) (.blockComment 0) rest) := rfl
  rw [h1, if_pos rfl, stripGoF_fuel_congr (rest.length + 1) _ rest (by omega) rest.length le_rfl]
  rfl

theorem sf_bc_inert (d : Nat) :
    ∀ (u rest : List Char), (∀ c ∈ u, c ≠ '/' ∧ c ≠ '*') →
      stripFrom (.blockComment d) (u ++ rest) =
        u.map blankComment ++ stripFrom (.blockComment d) rest := by
  intro u
  induction u with
  | nil => intro rest _; simp
  | cons c u ih =>
    intro rest hu
    have hc := hu c (List.mem_cons_self _ _)
    have h1 : stripFrom (.blockComment d) (c :: (u ++ rest))
        = stripGoF ((u ++ rest).length + 1) (.blockComment d) (c :: (u ++ rest)) := rfl
    rw [List.cons_append, h1, sgf_bc_other _ _ hc.1 hc.2]
    have h2 : stripGoF (u ++ rest).length (.blockComment d) (u ++ rest)
        = stripFrom (.blockComment d) (u ++ rest) := rfl
    rw [h2, ih rest (fun e he => hu e (List.mem_cons_of_mem _ he))]
    rfl

/-- C7: an open marker in `code` enters the block-comment state at depth 1;
each nested open marker increments the depth and each close marker
decrements it, returning to `code` only when the depth reaches zero.
Consequently, for a comment opened twice before any close, the text after
the first close marker is still blanked and only after the second close
marker is the remainder scanned as code again. -/
theorem C7_block_comment_nesting :
    (∀ rest : List Char,
      stripRust ('/' :: '*' :: rest) = ' ' :: ' ' :: stripFrom (.blockComment 1) rest) ∧
    (∀ (d : Nat) (rest : List Char),
      stripFrom (.blockComment d) ('/' :: '*' :: rest) =
        ' ' :: ' ' :: stripFrom (.blockComment (d + 1)) rest) ∧
    (∀ (d : Nat) (rest : List Char), d ≠ 1 →
      stripFrom (.blockComment d) ('*' :: '/' :: rest) =
        ' ' :: ' ' :: stripFrom (.blockComment (d - 1)) rest) ∧
    (∀ rest : List Char,
      stripFrom (.blockComment 1) ('*' :: '/' :: rest) = ' ' :: ' ' :: stripFrom .code rest) ∧
    (∀ u₁ u₂ u₃ v : List Char,
      (∀ c ∈ u₁, c ≠ '/' ∧ c ≠ '*') →
      (∀ c ∈ u₂, c ≠ '/' ∧ c ≠ '*') →
      (∀ c ∈ u₃, c ≠ '/' ∧ c ≠ '*') →
      stripRust ('/' :: '*' :: (u₁ ++ '/' :: '*' :: (u₂ ++ '*' :: '/' :: (u₃ ++ '*' :: '/' :: v)))) =
        ' ' :: ' ' :: (u₁.map blankComment ++ ' ' :: ' ' :: (u₂.map blankComment ++
          ' ' :: ' ' :: (u₃.map blankComment ++ ' ' :: ' ' :: stripFrom .code v)))) := by
  refine ⟨fun rest => sf_code_openBlock rest, sf_bc_openBlock,
    fun d rest hd => sf_bc_closeBlock_deep d hd rest, sf_bc_closeBlock_last, ?_⟩
  intro u₁ u₂ u₃ v h1 h2 h3
  show stripFrom .code _ = _
  rw [sf_code_openBlock, sf_bc_inert 1 u₁ _ h1, sf_bc_openBlock,
    sf_bc_inert 2 u₂ _ h2, sf_bc_closeBlock_deep 2 (by decide)]
  have h21 : (2 : Nat) - 1 = 1 := rfl
  rw [h21, sf_bc_inert 1 u₃ _ h3, sf_bc_closeBlock_last]

/-- Witness for `C7_block_comment_nesting`: the depth-decrement step at
depth 2, and the two-opens-two-closes scenario on `/*a/*b*/c*/z`. -/
theorem C7_block_comment_nesting_witness :
    (stripFrom (.blockComment 2) ('*' :: '/' :: ['x']) =
      ' ' :: ' ' :: stripFrom (.blockComment (2 - 1)) ['x']) ∧
    stripRust ('/' :: '*' :: (['a'] ++ '/' :: '*' :: (['b'] ++ '*' :: '/' :: (['c'] ++ '*' :: '/' :: ['z'])))) =
      ' ' :: ' ' :: (['a'].map blankComment ++ ' ' :: ' ' :: (['b'].map blankComment ++
        ' ' :: ' ' :: (['c'].map blankComment ++ ' ' :: ' ' :: stripFrom .code ['z']))) :=
  ⟨C7_block_comment_nesting.2.2.1 2 ['x'] (by decide),
   C7_block_comment_nesting.2.2.2.2 ['a'] ['b'] ['c'] ['z'] (by decide) (by decide) (by decide)⟩

theorem sgf_code_other (f : Nat) {c : Char} (h1 : c ≠ '/') (h2 : c ≠ '"')
    (h3 : c ≠ '\'') (h4 : c ≠ 'r') (rest : List Char) :
    stripGoF (f + 1) .code (c :: rest) = c :: stripGoF f .code rest := by
  simp only [stripGoF]
  split <;> simp_all

theorem sgf_code_slash (f : Nat) {rest : List Char} (h1 : rest.head? ≠ some '/')
    (h2 : rest.head? ≠ some '*') :
    stripGoF (f + 1) .code ('/' :: rest) = '/' :: stripGoF f .code rest := by
  simp only [stripGoF]
  split <;> (try simp_all) <;> (rename_i hh; simp [hh.1.symm, hh.2])

theorem sgf_str_other (f : Nat) {c : Char} (h1 : c ≠ '\\') (h2 : c ≠ '"') (rest : List Char) :
    stripGoF (f + 1) .stringLit (c :: rest) = c :: stripGoF f .stringLit rest := by
  simp only [stripGoF]
  split <;> simp_all

theorem sgf_char_other (f : Nat) {c : Char} (h1 : c ≠ '\\') (h2 : c ≠ '\'') (rest : List Char) :
    stripGoF (f + 1) .charLit (c :: rest) = c :: stripGoF f .charLit rest := by
  simp only [stripGoF]
  split <;> simp_all

theorem sgf_raw_other (f k : Nat) {c : Char} (hc : c ≠ '"') (rest : List Char) :
    stripGoF (f + 1) (.rawString k) (c :: rest) = c :: stripGoF f (.rawString k) rest := by
  cases k with
  | zero => simp only [stripGoF]; split <;> simp_all
  | succ k => simp only [stripGoF]; split <;> simp_all

theorem sgf_rawS_quote (f k : Nat) (rest : List Char) :
    stripGoF (f + 1) (.rawString (k + 1)) ('"' :: rest) =
      if countHashesUpTo (k + 1) rest = k + 1 then
        '"' :: (List.replicate (k + 1) '#' ++ stripGoF f .code (rest.drop (k + 1)))
      else '"' :: stripGoF f (.rawString (k + 1)) rest := rfl

theorem sgf_code_r (f : Nat) (rest : List Char) :
    stripGoF (f + 1) .code ('r' :: rest) =
      if (rest.drop (countHashes rest)).head? = some '"' then
        'r' :: (List.replicate (countHashes rest) '#' ++ '"' ::
          stripGoF f (.rawString (countHashes rest)) (rest.drop (countHashes rest + 1)))
      else 'r' :: stripGoF f .code rest := rfl

theorem countHashes_replicate_append (h : Nat) (t : List Char) :
    countHashes (List.replicate h '#' ++ t) = h + countHashes t := by
  induction h with
  | zero => simp
  | succ h ih => simp [List.replicate_succ, countHashes, ih]; omega

theorem countHashes_of_head_ne {t : List Char} (h : t.head? ≠ some '#') :
    countHashes t = 0 := by
  cases t with
  | nil => rfl
  | cons c rest =>
    simp only [List.head?_cons, ne_eq, Option.some.injEq] at h
    simp [countHashes, h]

theorem countHashesUpTo_replicate_append (b : Nat) (t : List Char) :
    countHashesUpTo b (List.replicate b '#' ++ t) = b := by
  induction b generalizing t with
  | zero => simp [countHashesUpTo]
  | succ b ih => simp [List.replicate_succ, countHashesUpTo, ih]

theorem Blankish.head_cases {o i' : List Char} {c : Char} (h : Blankish o (c :: i')) :
    ∃ o', o = c :: o' ∨ (o = ' ' :: o' ∧ c ≠ '\n') := by
  cases h with
  | keep c hb => exact ⟨_, Or.inl rfl⟩
  | blank hc hb => exact ⟨_, Or.inr ⟨rfl, hc⟩⟩

theorem sf_cons (s : ScanState) (c : Char) (X : List Char) :
    stripFrom s (c :: X) = stripGoF (X.length + 1) s (c :: X) := rfl

theorem sf_code_inert {c : Char} (h1 : c ≠ '/') (h2 : c ≠ '"') (h3 : c ≠ '\'')
    (h4 : c ≠ 'r') (X : List Char) :
    stripFrom .code (c :: X) = c :: stripFrom .code X := by
  rw [sf_cons, sgf_code_other _ h1 h2 h3 h4, ← stripFrom_eq_stripGoF _ _ le_rfl]

theorem sf_code_slash {X : List Char} (h1 : X.head? ≠ some '/') (h2 : X.head? ≠ some '*') :
    stripFrom .code ('/' :: X) = '/' :: stripFrom .code X := by
  rw [sf_cons, sgf_code_slash _ h1 h2, ← stripFrom_eq_stripGoF _ _ le_rfl]

theorem sf_code_quote (X : List Char) :
    stripFrom .code ('"' :: X) = '"' :: stripFrom .stringLit X := by
  rw [sf_cons]
  have h : stripGoF (X.length + 1) .code ('"' :: X) = '"' :: stripGoF X.length .stringLit X := rfl
  rw [h, ← stripFrom_eq_stripGoF _ _ le_rfl]

theorem sf_code_squote (X : List Char) :
    stripFrom .code ('\'' :: X) = '\'' :: stripFrom .charLit X := by
  rw [sf_cons]
  have h : stripGoF (X.length + 1) .code ('\'' :: X) = '\'' :: stripGoF X.length .charLit X := rfl
  rw [h, ← stripFrom_eq_stripGoF _ _ le_rfl]

theorem sf_code_r_raw {X : List Char} (h : (X.drop (countHashes X)).head? = some '"') :
    stripFrom .code ('r' :: X) = 'r' :: (List.replicate (countHashes X) '#' ++ '"' ::
      stripFrom (.rawString (countHashes X)) (X.drop (countHashes X + 1))) := by
  rw [sf_cons, sgf_code_r, if_pos h,
    ← stripFrom_eq_stripGoF _ _ (le_trans (List.length_drop _ _ ▸ Nat.sub_le _ _) le_rfl)]

theorem sf_code_r_nonraw {X : List Char} (h : (X.drop (countHashes X)).head? ≠ some '"') :
    stripFrom .code ('r' :: X) = 'r' :: stripFrom .code X := by
  rw [sf_cons, sgf_code_r, if_neg h, ← stripFrom_eq_stripGoF _ _ le_rfl]

theorem sf_str_close (X : List Char) :
    stripFrom .stringLit ('"' :: X) = '"' :: stripFrom .code X := by
  rw [sf_cons]
  have h : stripGoF (X.length + 1) .stringLit ('"' :: X) = '"' :: stripGoF X.length .code X := rfl
  rw [h, ← stripFrom_eq_stripGoF _ _ le_rfl]

theorem sf_str_esc (c : Char) (X : List Char) :
    stripFrom .stringLit ('\\' :: c :: X) = '\\' :: c :: stripFrom .stringLit X := by
  have h : stripFrom .stringLit ('\\' :: c :: X)
      = '\\' :: c :: stripGoF (X.length + 1) .stringLit X := rfl
  rw [h, ← stripFrom_eq_stripGoF _ _ (Nat.le_succ _)]

theorem sf_str_other {c : Char} (h1 : c ≠ '\\') (h2 : c ≠ '"') (X : List Char) :
    stripFrom .stringLit (c :: X) = c :: stripFrom .stringLit X := by
  rw [sf_cons, sgf_str_other _ h1 h2, ← stripFrom_eq_stripGoF _ _ le_rfl]

theorem sf_str_backslash_nil : stripFrom .stringLit ['\\'] = ['\\'] := rfl

theorem sf_char_close (X : List Char) :
    stripFrom .charLit ('\'' :: X) = '\'' :: stripFrom .code X := by
  rw [sf_cons]
  have h : stripGoF (X.length + 1) .charLit ('\'' :: X) = '\'' :: stripGoF X.length .code X := rfl
  rw [h, ← stripFrom_eq_stripGoF _ _ le_rfl]

theorem sf_char_esc (c : Char) (X : List Char) :
    stripFrom .charLit ('\\' :: c :: X) = '\\' :: c :: stripFrom .charLit X := by
  have h : stripFrom .charLit ('\\' :: c :: X)
      = '\\' :: c :: stripGoF (X.length + 1) .charLit X := rfl
  rw [h, ← stripFrom_eq_stripGoF _ _ (Nat.le_succ _)]

theorem sf_char_other {c : Char} (h1 : c ≠ '\\') (h2 : c ≠ '\'') (X : List Char) :
    stripFrom .charLit (c :: X) = c :: stripFrom .charLit X := by
  rw [sf_cons, sgf_char_other _ h1 h2, ← stripFrom_eq_stripGoF _ _ le_rfl]

theorem sf_char_backslash_nil : stripFrom .charLit ['\\'] = ['\\'] := rfl

theorem sf_raw_other (k : Nat) {c : Char} (hc : c ≠ '"') (X : List Char) :
    stripFrom (.rawString k) (c :: X) = c :: stripFrom (.rawString k) X := by
  rw [sf_cons, sgf_raw_other _ _ hc, ← stripFrom_eq_stripGoF _ _ le_rfl]

theorem sf_raw0_close (X : List Char) :
    stripFrom (.rawString 0) ('"' :: X) = '"' :: stripFrom .code X := by
  rw [sf_cons]
  have h : stripGoF (X.length + 1) (.rawString 0) ('"' :: X) = '"' :: stripGoF X.length .code X := rfl
  rw [h, ← stripFrom_eq_stripGoF _ _ le_rfl]

theorem sf_rawS_close_full {k : Nat} {X : List Char}
    (h : countHashesUpTo (k + 1) X = k + 1) :
    stripFrom (.rawString (k + 1)) ('"' :: X) =
      '"' :: (List.replicate (k + 1) '#' ++ stripFrom .code (X.drop (k + 1))) := by
  rw [sf_cons, sgf_rawS_quote, if_pos h,
    ← stripFrom_eq_stripGoF _ _ (le_trans (List.length_drop _ _ ▸ Nat.sub_le _ _) le_rfl)]

theorem sf_rawS_close_short {k : Nat} {X : List Char}
    (h : ¬ countHashesUpTo (k + 1) X = k + 1) :
    stripFrom (.rawString (k + 1)) ('"' :: X) = '"' :: stripFrom (.rawString (k + 1)) X := by
  rw [sf_cons, sgf_rawS_quote, if_neg h, ← stripFrom_eq_stripGoF _ _ le_rfl]

theorem sf_code_hashes (h : Nat) (t : List Char) :
    stripFrom .code (List.replicate h '#' ++ t) = List.replicate h '#' ++ stripFrom .code t := by
  induction h with
  | zero => simp
  | succ h ih =>
    rw [List.replicate_succ, List.cons_append,
      sf_code_inert (by decide) (by decide) (by decide) (by decide), ih, List.cons_append]

theorem countHashes_drop_head (t : List Char) :
    (t.drop (countHashes t)).head? ≠ some '#' := by
  induction t with
  | nil => simp
  | cons c rest ih =>
    by_cases hc : c = '#'
    · subst hc
      simpa [countHashes] using ih
    · simp [countHashes, hc]

theorem stripGoF_raw_head (f k : Nat) (c : Char) (rest : List Char) :
    ∃ X, stripGoF (f + 1) (.rawString k) (c :: rest) = c :: X := by
  by_cases hc : c = '"'
  · subst hc
    cases k with
    | zero => exact ⟨_, rfl⟩
    | succ k =>
      rw [sgf_rawS_quote]
      split_ifs
      · exact ⟨_, rfl⟩
      · exact ⟨_, rfl⟩
  · exact ⟨_, sgf_raw_other f k hc rest⟩

theorem countHashesUpTo_stripRaw :
    ∀ (b f k : Nat) (t : List Char), t.length ≤ f →
      countHashesUpTo b (stripGoF f (.rawString k) t) = countHashesUpTo b t := by
  intro b
  induction b with
  | zero => intro f k t h; simp [countHashesUpTo]
  | succ b ih =>
    intro f k t h
    cases t with
    | nil => rw [stripGoF_nil]
    | cons c rest =>
      obtain ⟨f', rfl⟩ : ∃ f', f = f' + 1 := ⟨f - 1, by simp at h; omega⟩
      by_cases hc : c = '#'
      · subst hc
        rw [sgf_raw_other f' k (by decide) rest]
        simp only [countHashesUpTo, if_pos rfl]
        rw [ih f' k rest (by simp at h; omega)]
      · obtain ⟨X, hX⟩ := stripGoF_raw_head f' k c rest
        rw [hX]
        simp only [countHashesUpTo, if_neg hc]

theorem stripFrom_nil (s : ScanState) : stripFrom s [] = [] := rfl

theorem drop_replicate_append (n : Nat) (c : Char) (l : List Char) :
    (List.replicate n c ++ l).drop n = l := by
  have h := List.drop_left (List.replicate n c) l
  rwa [List.length_replicate] at h

theorem strip_pass2 :
    ∀ (f : Nat) (s : ScanState) (t : List Char), t.length ≤ f →
      stripFrom (pass2State s) (stripGoF f s t) = stripGoF f s t := by
  intro f s t
  induction f, s, t using stripGoF.induct with
  | case1 s t =>
    intro h
    have ht : t = [] := List.length_eq_zero.mp (Nat.le_zero.mp h)
    subst ht
    rw [stripGoF_nil, stripFrom_nil]
  | case2 fuel s =>
    intro h
    rw [stripGoF_nil, stripFrom_nil]
  | case3 fuel rest ih =>
    intro h
    simp only [stripGoF, pass2State] at ih ⊢
    rw [sf_code_inert (by decide) (by decide) (by decide) (by decide),
      ih (by simp at h; omega)]
  | case4 fuel c rest hc ih =>
    intro h
    simp only [stripGoF, hc, pass2State] at ih ⊢
    rw [sf_code_inert (by decide) (by decide) (by decide) (by decide),
      ih (by simp at h; omega)]
  | case5 fuel d rest ih =>
    intro h
    simp only [stripGoF, pass2State] at ih ⊢
    rw [sf_code_inert (by decide) (by decide) (by decide) (by decide),
      sf_code_inert (by decide) (by decide) (by decide) (by decide),
      ih (by simp at h; omega)]
  | case6 fuel d rest ih₁ ih₂ =>
    intro h
    simp only [stripGoF, pass2State] at ih₁ ih₂ ⊢
    split_ifs
    · rw [sf_code_inert (by decide) (by decide) (by decide) (by decide),
        sf_code_inert (by decide) (by decide) (by decide) (by decide),
        ih₁ (by simp at h; omega)]
    · rw [sf_code_inert (by decide) (by decide) (by decide) (by decide),
        sf_code_inert (by decide) (by decide) (by decide) (by decide),
        ih₂ (by simp at h; omega)]
  | case7 fuel d c rest h1 h2 ih =>
    intro h
    simp only [stripGoF, h1, h2, pass2State] at ih ⊢
    by_cases hc : c = '\n'
    · rw [if_pos hc, sf_code_inert (by decide) (by decide) (by decide) (by decide),
        ih (by simp at h; omega)]
    · rw [if_neg hc, sf_code_inert (by decide) (by decide) (by decide) (by decide),
        ih (by simp at h; omega)]
  | case8 fuel c rest ih =>
    intro h
    simp only [stripGoF, pass2State] at ih ⊢
    rw [sf_str_esc, ih (by simp at h; omega)]
  | case9 fuel rest ih =>
    intro h
    simp only [stripGoF, pass2State] at ih ⊢
    rw [sf_str_close, ih (by simp at h; omega)]
  | case10 fuel c rest h1 h2 ih =>
    intro h
    simp only [stripGoF, h1, h2, pass2State] at ih ⊢
    by_cases hc : c = '\\'
    · subst hc
      cases rest with
      | nil => rw [stripGoF_nil, sf_str_backslash_nil]
      | cons c1 r1 => exact absurd rfl (fun hh => h1 c1 r1 hh rfl)
    · rw [sf_str_other hc (fun hh => h2 hh), ih (by simp at h; omega)]
  | case11 fuel c rest ih =>
    intro h
    simp only [stripGoF, pass2State] at ih ⊢
    rw [sf_char_esc, ih (by simp at h; omega)]
  | case12 fuel rest ih =>
    intro h
    simp only [stripGoF, pass2State] at ih ⊢
    rw [sf_char_close, ih (by simp at h; omega)]
  | case13 fuel c rest h1 h2 ih =>
    intro h
    simp only [stripGoF, h1, h2, pass2State] at ih ⊢
    by_cases hc : c = '\\'
    · subst hc
      cases rest with
      | nil => rw [stripGoF_nil, sf_char_backslash_nil]
      | cons c1 r1 => exact absurd rfl (fun hh => h1 c1 r1 hh rfl)
    · rw [sf_char_other hc (fun hh => h2 hh), ih (by simp at h; omega)]
  | case14 fuel rest ih =>
    intro h
    simp only [stripGoF, pass2State] at ih ⊢
    rw [sf_raw0_close, ih (by simp at h; omega)]
  | case15 fuel k rest hk ih =>
    intro h
    simp only [stripGoF, hk, if_pos, pass2State] at ih ⊢
    rw [sf_rawS_close_full (countHashesUpTo_replicate_append (k + 1) _)]
    have hd : (List.replicate (k + 1) '#' ++
        stripGoF fuel .code (rest.drop (k + 1))).drop (k + 1) =
        stripGoF fuel .code (rest.drop (k + 1)) :=
      drop_replicate_append _ _ _
    rw [hd, ih (by simp only [List.length_cons, List.length_drop] at h ⊢; omega)]
  | case16 fuel k rest hk ih =>
    intro h
    simp only [stripGoF, if_neg hk, pass2State] at ih ⊢
    rw [sf_rawS_close_short (by
      rw [countHashesUpTo_stripRaw _ _ _ _ (by simp at h; omega)]
      exact hk)]
    rw [ih (by simp at h; omega)]
  | case17 fuel k c rest h1 h2 ih =>
    intro h
    have hc : c ≠ '"' := by
      cases k with
      | zero => exact fun hh => h1 rfl hh
      | succ k1 => exact fun hh => h2 k1 rfl hh
    simp only [stripGoF, h1, h2, pass2State] at ih ⊢
    rw [sf_raw_other _ hc, ih (by simp at h; omega)]
  | case18 fuel rest ih =>
    intro h
    simp only [stripGoF, pass2State] at ih ⊢
    rw [sf_code_inert (by decide) (by decide) (by decide) (by decide),
      sf_code_inert (by decide) (by decide) (by decide) (by decide),
      ih (by simp at h; omega)]
  | case19 fuel rest ih =>
    intro h
    simp only [stripGoF, pass2State] at ih ⊢
    rw [sf_code_inert (by decide) (by decide) (by decide) (by decide),
      sf_code_inert (by decide) (by decide) (by decide) (by decide),
      ih (by simp at h; omega)]
  | case20 fuel rest ih =>
    intro h
    simp only [stripGoF, pass2State] at ih ⊢
    rw [sf_code_quote, ih (by simp at h; omega)]
  | case21 fuel rest ih =>
    intro h
    simp only [stripGoF, pass2State] at ih ⊢
    rw [sf_code_squote, ih (by simp at h; omega)]
  | case22 fuel rest hv hq ih =>
    intro h
    simp only [stripGoF, pass2State] at ih ⊢
    rw [if_pos hq]
    have hO : stripGoF fuel (.rawString (countHashes rest)) (rest.drop (countHashes rest + 1))
        = stripFrom (.rawString (countHashes rest)) (rest.drop (countHashes rest + 1)) :=
      (stripFrom_eq_stripGoF _ _ (by simp only [List.length_cons, List.length_drop] at h ⊢; omega)).symm
    rw [hO] at ih ⊢
    set O := stripFrom (.rawString (countHashes rest)) (rest.drop (countHashes rest + 1)) with hOdef
    have hcx : countHashes (List.replicate (countHashes rest) '#' ++ '"' :: O) = countHashes rest := by
      rw [countHashes_replicate_append]
      simp [countHashes]
    have hdh : (List.replicate (countHashes rest) '#' ++ '"' :: O).drop (countHashes rest) = '"' :: O :=
      drop_replicate_append _ _ _
    rw [sf_code_r_raw (by rw [hcx, hdh]; rfl)]
    rw [hcx]
    have hd1 : (List.replicate (countHashes rest) '#' ++ '"' :: O).drop (countHashes rest + 1) = O := by
      rw [← List.tail_drop, hdh]
      rfl
    rw [hd1, ih (by simp only [List.length_cons, List.length_drop] at h ⊢; omega)]
  | case23 fuel rest hv hq ih =>
    intro h
    simp only [stripGoF, pass2State] at ih ⊢
    rw [if_neg hq]
    have hO : stripGoF fuel .code rest = stripFrom .code rest :=
      (stripFrom_eq_stripGoF _ _ (by simp at h; omega)).symm
    rw [hO] at ih ⊢
    have hsplit : rest = List.replicate (countHashes rest) '#' ++ rest.drop (countHashes rest) := by
      conv_lhs => rw [← List.take_append_drop (countHashes rest) rest]
      rw [countHashes_take]
    have hOs : stripFrom .code rest
        = List.replicate (countHashes rest) '#' ++ stripFrom .code (rest.drop (countHashes rest)) := by
      conv_lhs => rw [hsplit]
      rw [sf_code_hashes]
    have hnot : ((stripFrom .code rest).drop (countHashes (stripFrom .code rest))).head? ≠ some '"' := by
      rcases hR : rest.drop (countHashes rest) with _ | ⟨c₂, r₂⟩
      · rw [hOs, hR, stripFrom_nil, List.append_nil]
        have hcr : countHashes (List.replicate (countHashes rest) '#') = countHashes rest := by
          have := countHashes_replicate_append (countHashes rest) []
          simpa using this
        rw [hcr]
        have hdrop : (List.replicate (countHashes rest) '#').drop (countHashes rest) = ([] : List Char) := by
          have hh := drop_replicate_append (countHashes rest) '#' []
          simpa using hh
        rw [hdrop]
        simp
      · have hc₂hash : c₂ ≠ '#' := by
          have := countHashes_drop_head rest
          rw [hR] at this
          simpa using this
        have hc₂q : c₂ ≠ '"' := by
          rw [hR] at hq
          simpa using hq
        have hb : Blankish (stripFrom .code (c₂ :: r₂)) (c₂ :: r₂) :=
          blankish_stripGoF _ _ _ le_rfl
        obtain ⟨o', ho'⟩ := hb.head_cases
        have hhead : (stripFrom .code (c₂ :: r₂)).head? = some c₂ ∨
            (stripFrom .code (c₂ :: r₂)).head? = some ' ' := by
          rcases ho' with ho' | ⟨ho', _⟩ <;> rw [ho'] <;> simp
        have hch0 : countHashes (stripFrom .code (c₂ :: r₂)) = 0 := by
          apply countHashes_of_head_ne
          rcases hhead with hh | hh <;> rw [hh] <;> simp [hc₂hash]
        rw [hOs, hR]
        rw [countHashes_replicate_append, hch0]
        have hd : (List.replicate (countHashes rest) '#' ++
            stripFrom .code (c₂ :: r₂)).drop (countHashes rest + 0) = stripFrom .code (c₂ :: r₂) := by
          rw [Nat.add_zero]
          exact drop_replicate_append _ _ _
        rw [hd]
        rcases hhead with hh | hh <;> rw [hh] <;> simp [hc₂q]
    rw [sf_code_r_nonraw hnot, ih (by simp at h; omega)]
  | case24 fuel c rest h1 h2 h3 h4 h5 ih =>
    intro h
    simp only [stripGoF, h1, h2, h3, h4, h5, pass2State] at ih ⊢
    have hO : stripGoF fuel .code rest = stripFrom .code rest :=
      (stripFrom_eq_stripGoF _ _ (by simp at h; omega)).symm
    rw [hO] at ih ⊢
    by_cases hc : c = '/'
    · subst hc
      have hhs : (stripFrom .code rest).head? ≠ some '/' ∧
          (stripFrom .code rest).head? ≠ some '*' := by
        cases rest with
        | nil => rw [stripFrom_nil]; simp
        | cons c₀ r₀ =>
          have hc₀1 : c₀ ≠ '/' := fun hh => h1 r₀ rfl (by rw [hh])
          have hc₀2 : c₀ ≠ '*' := fun hh => h2 r₀ rfl (by rw [hh])
          have hb : Blankish (stripFrom .code (c₀ :: r₀)) (c₀ :: r₀) :=
            blankish_stripGoF _ _ _ le_rfl
          obtain ⟨o', ho'⟩ := hb.head_cases
          rcases ho' with ho' | ⟨ho', _⟩ <;> rw [ho'] <;>
            exact ⟨by simp [hc₀1], by simp [hc₀2]⟩
      rw [sf_code_slash hhs.1 hhs.2, ih (by simp at h; omega)]
    · rw [sf_code_inert hc h3 h4 h5, ih (by simp at h; omega)]

theorem stripRust_idem (t : List Char) : stripRust (stripRust t) = stripRust t :=
  strip_pass2 t.length .code t le_rfl

/-- C10: `strip_rust_comments` is idempotent — blanking comments once leaves
no comment markers to blank, and the preserved string, char and raw-string
literals re-tokenize identically on a second pass. -/
theorem C10_strip_idempotent (text : String) :
    strip_rust_comments (strip_rust_comments text) = strip_rust_comments text :=
  congrArg String.mk (stripRust_idem text.data)

/-- C5: if any path segment of the relative path of a file is in the
excluded-directory set of a rule, or the exact relative path is in the
excluded-file set, then `find_matches` returns the empty list for that file,
for every pattern and every file content: the exclusion test precedes all
pattern evaluation. -/
theorem C5_exclusion_precedence :
    ∀ (file_text : List Char) (pattern : List Char → Bool) (rel : String)
      (excludes : Excludes),
      (rel ∈ excludes.exclude_files ∨
        ∃ seg ∈ pathSegments rel, seg ∈ excludes.exclude_dirs) →
      find_matches file_text pattern rel excludes = [] := by
  intro file_text pattern rel excludes h
  unfold find_matches
  by_cases hf : rel ∈ excludes.exclude_files
  · rw [if_pos hf]
  · rw [if_neg hf]
    rcases h with h | ⟨seg, hseg, hmem⟩
    · exact absurd h hf
    · rw [if_pos]
      constructor
      · intro hnil
        rw [hnil] at hmem
        simp at hmem
      · rw [List.any_eq_true]
        exact ⟨seg, hseg, by simpa using hmem⟩

/-- Witness for `C5_exclusion_precedence`: a file under the excluded
directory segment `tests` yields no hits even for a pattern that matches
every line. -/
theorem C5_exclusion_precedence_witness :
    ("crates/tsz-checker/tests/foo.rs" ∈ (Excludes.mk [] ["tests"] false).exclude_files ∨
      ∃ seg ∈ pathSegments "crates/tsz-checker/tests/foo.rs",
        seg ∈ (Excludes.mk [] ["tests"] false).exclude_dirs) ∧
    find_matches "let x = TypeKey::intern();".data (fun _ => true)
      "crates/tsz-checker/tests/foo.rs" (Excludes.mk [] ["tests"] false) = [] :=
  ⟨by decide, C5_exclusion_precedence _ _ _ _ (by decide)⟩

/-- C8: when a rule sets the line-comment-aware flag, `find_matches` never
produces a hit on a physical line whose left-trimmed content begins with
`//`; but it does evaluate, and can produce a hit on, a line whose matching
text precedes a trailing same-line comment, and a line lying inside a block
comment. -/
theorem C8_line_comment_heuristic :
    (∀ (text : List Char) (pattern : List Char → Bool) (rel : String)
       (excludes : Excludes) (j : Nat) (line : List Char),
       excludes.ignore_comment_lines = true →
       (pySplitlines text)[j]? = some line →
       List.isPrefixOf ['/', '/'] (pyLstrip line) = true →
       (j + 1) ∉ find_matches text pattern rel excludes) ∧
    find_matches "foo(); // trailing".data (containsSub "foo".data) "a.rs"
      (Excludes.mk [] [] true) = [1] ∧
    find_matches "/* opening\nfoo\n*/".data (containsSub "foo".data) "a.rs"
      (Excludes.mk [] [] true) = [2] := by
  refine ⟨?_, by decide, by decide⟩
  intro text pattern rel excludes j line hicl hline hcomment hmem
  unfold find_matches at hmem
  split_ifs at hmem with hf hd
  · simp at hmem
  · simp at hmem
  · rw [List.mem_filterMap] at hmem
    obtain ⟨pr, hpr, heq⟩ := hmem
    have hget : (pySplitlines text)[pr.1]? = some pr.2 := by
      rw [← List.mem_enum_iff_getElem?]
      exact hpr
    by_cases hcz : (excludes.ignore_comment_lines &&
        List.isPrefixOf ['/', '/'] (pyLstrip pr.2)) = true
    · rw [if_pos hcz] at heq
      exact Option.noConfusion heq
    · rw [if_neg hcz] at heq
      by_cases hpz : pattern pr.2 = true
      · rw [if_pos hpz] at heq
        simp only [Option.some.injEq] at heq
        have hj : pr.1 = j := by omega
        rw [hj, hline] at hget
        have hl : pr.2 = line := by simpa using hget.symm
        rw [hicl, hl, hcomment] at hcz
        simp at hcz
      · rw [if_neg hpz] at heq
        exact Option.noConfusion heq

/-- Witness for `C8_line_comment_heuristic`: the line `// foo` is never
reported even though the pattern matches its text. -/
theorem C8_line_comment_heuristic_witness :
    (Excludes.mk [] [] true).ignore_comment_lines = true ∧
    (pySplitlines "// foo".data)[0]? = some "// foo".data ∧
    List.isPrefixOf ['/', '/'] (pyLstrip "// foo".data) = true ∧
    (0 + 1) ∉ find_matches "// foo".data (containsSub "foo".data) "a.rs"
      (Excludes.mk [] [] true) := by
  refine ⟨rfl, by decide, by decide, ?_⟩
  exact C8_line_comment_heuristic.1 "// foo".data (containsSub "foo".data) "a.rs"
    (Excludes.mk [] [] true) 0 "// foo".data rfl (by decide) (by decide)

/-- C6: `scan_line_limits` reports a hit for a file exactly when its
physical line count strictly exceeds the ceiling, and the hit string is the
relative path followed by `:<count> lines (limit <ceiling>)`.  A 2001-line
file with ceiling 2000 yields exactly one hit ending in
`2001 lines (limit 2000)`, and a file of exactly 2000 lines yields zero
hits. -/
theorem C6_line_limits :
    (∀ (corpus : List (String × List Char)) (limit : Nat) (s : String),
      s ∈ scan_line_limits corpus limit ↔
        ∃ pr ∈ corpus, limit < pyLineCount pr.2 ∧
          s = pr.1 ++ ":" ++ toString (pyLineCount pr.2) ++ " lines (limit " ++
            toString limit ++ ")") ∧
    scan_line_limits [("big.rs", List.replicate 2000 '\n' ++ ['x'])] 2000 =
      ["big.rs:" ++ "2001 lines (limit 2000)"] ∧
    scan_line_limits [("at_limit.rs", List.replicate 2000 '\n')] 2000 = [] := by
  have hbig : pyLineCount (List.replicate 2000 '\n' ++ ['x']) = 2001 := by
    unfold pyLineCount
    rw [List.count_append, List.count_replicate_self, List.getLast?_concat]
    rw [if_pos ⟨fun hh => by simp only [List.append_eq_nil] at hh; exact List.noConfusion hh.2,
      by decide⟩]
    have h1 : List.count '\n' ['x'] = 0 := by decide
    rw [h1]
  have hok : pyLineCount (List.replicate 2000 '\n') = 2000 := by
    unfold pyLineCount
    rw [List.count_replicate_self]
    have hlast : (List.replicate 2000 '\n').getLast? = some '\n' := by
      rw [show (2000 : Nat) = 1999 + 1 from rfl, List.replicate_succ', List.getLast?_concat]
    rw [hlast, if_neg (fun hh => hh.2 rfl)]
  refine ⟨?_, ?_, ?_⟩
  · intro corpus limit s
    simp only [scan_line_limits, List.mem_flatMap]
    constructor
    · rintro ⟨pr, hpr, hs⟩
      split_ifs at hs with hgt
      · simp only [List.mem_singleton] at hs
        exact ⟨pr, hpr, hgt, hs⟩
      · simp at hs
    · rintro ⟨pr, hpr, hgt, hs⟩
      refine ⟨pr, hpr, ?_⟩
      rw [if_pos hgt]
      simp only [List.mem_singleton]
      exact hs
  · simp only [scan_line_limits, List.flatMap_cons, List.flatMap_nil, List.append_nil, hbig]
    rw [if_pos (by norm_num)]
    have : "big.rs" ++ ":" ++ toString (2001 : Nat) ++ " lines (limit " ++
        toString (2000 : Nat) ++ ")" = "big.rs:" ++ "2001 lines (limit 2000)" := rfl
    rw [this]
  · simp only [scan_line_limits, List.flatMap_cons, List.flatMap_nil, List.append_nil, hok]
    rw [if_neg (by norm_num)]

theorem aggregate_sum_filter (results : List (String × List String)) :
    ((results.filter (fun r => !r.2.isEmpty)).map (fun r => r.2.length)).sum
      = (results.map (fun r => r.2.length)).sum := by
  induction results with
  | nil => rfl
  | cons r rs ih =>
    by_cases hr : r.2.isEmpty
    · rw [List.filter_cons, if_neg (by simp [hr]), List.map_cons, List.sum_cons, ih,
        List.isEmpty_iff.mp hr]
      simp
    · rw [List.filter_cons, if_pos (by simp [hr]), List.map_cons, List.map_cons,
        List.sum_cons, List.sum_cons, ih]

theorem aggregate_total_zero_iff (results : List (String × List String)) :
    (results.map (fun r => r.2.length)).sum = 0 ↔
      (results.filter (fun r => !r.2.isEmpty)).isEmpty := by
  induction results with
  | nil => simp
  | cons r rs ih =>
    rw [List.map_cons, List.sum_cons, List.filter_cons]
    by_cases hr : r.2.isEmpty
    · rw [if_neg (by simp [hr])]
      rw [List.isEmpty_iff] at hr
      simp [hr, ih]
    · rw [if_pos (by simp [hr])]
      have hlen : r.2.length ≠ 0 := by
        intro hh
        exact hr (List.isEmpty_iff.mpr (List.length_eq_zero.mp hh))
      simp only [List.isEmpty_cons, Bool.false_eq_true, iff_false]
      omega

/-- C3: in the verdict built by `main`, `total_hits` equals the sum of the
sizes of the reported failure groups, `status` is `"failed"` exactly when
`total_hits > 0` (and `"passed"` exactly when it is zero), and in both the
`--json` and the human-readable presentation modes the process exit code is
`0` exactly when `status` is `"passed"` and non-zero exactly when it is
`"failed"`. -/
theorem C3_verdict_aggregation (results : List (String × List String)) :
    (aggregate results).total_hits =
      ((aggregate results).failures.map (fun f => f.2.length)).sum ∧
    ((aggregate results).status = "failed" ↔ 0 < (aggregate results).total_hits) ∧
    ((aggregate results).status = "passed" ↔ (aggregate results).total_hits = 0) ∧
    (jsonModeExit (aggregate results) = 0 ↔ (aggregate results).status = "passed") ∧
    (humanModeExit (aggregate results) = 0 ↔ (aggregate results).status = "passed") ∧
    (jsonModeExit (aggregate results) ≠ 0 ↔ (aggregate results).status = "failed") ∧
    (humanModeExit (aggregate results) ≠ 0 ↔ (aggregate results).status = "failed") := by
  have hsum := aggregate_sum_filter results
  have hzero := aggregate_total_zero_iff results
  unfold aggregate jsonModeExit humanModeExit
  simp only
  by_cases hempty : (results.filter (fun r => !r.2.isEmpty)).isEmpty
  · simp only [if_pos hempty]
    have h0 : (results.map (fun r => r.2.length)).sum = 0 := hzero.mpr hempty
    refine ⟨hsum.symm, ?_, ?_, ?_, ?_, ?_, ?_⟩ <;> simp [h0]
  · simp only [if_neg hempty]
    have h0 : (results.map (fun r => r.2.length)).sum ≠ 0 := fun hh => hempty (hzero.mp hh)
    refine ⟨hsum.symm, ?_, ?_, ?_, ?_, ?_, ?_⟩ <;> simp [h0] <;> omega

theorem Blankish.drop {o i : List Char} (h : Blankish o i) :
    ∀ p : Nat, Blankish (o.drop p) (i.drop p) := by
  induction h with
  | nil => intro p; simpa using Blankish.nil
  | keep c h ih =>
    intro p
    cases p with
    | zero => simpa using Blankish.keep c h
    | succ p => simpa using ih p
  | blank hc h ih =>
    intro p
    cases p with
    | zero => simpa using Blankish.blank hc h
    | succ p => simpa using ih p

theorem eatLit_isPrefixOf :
    ∀ {pat l r : List Char}, eatLit pat l = some r → List.isPrefixOf pat l = true := by
  intro pat
  induction pat with
  | nil => intro l r _; cases l <;> rfl
  | cons c cs ih =>
    intro l r h
    cases l with
    | nil => exact Option.noConfusion h
    | cons d rest =>
      simp only [eatLit] at h
      split_ifs at h with hd
      simp only [List.isPrefixOf, Bool.and_eq_true, beq_iff_eq]
      exact ⟨hd.symm, ih h⟩

theorem matchDirectIntern_dotIntern {l r : List Char}
    (h : matchDirectIntern l = some r) :
    List.isPrefixOf ".intern".data l = true := by
  unfold matchDirectIntern at h
  cases he : eatLit ".intern".data l with
  | none => rw [he] at h; exact Option.noConfusion h
  | some r1 => exact eatLit_isPrefixOf he

theorem matchAliasIntern_dotIntern {a l r : List Char}
    (h : matchAliasIntern a l = some r) :
    List.isPrefixOf ".intern".data l = true := by
  unfold matchAliasIntern at h
  cases he : eatLit ".intern".data l with
  | none => rw [he] at h; exact Option.noConfusion h
  | some r1 => exact eatLit_isPrefixOf he

theorem finditerGo_eq_nil {α : Type} {m : List Char → Nat → Option (α × Nat)}
    {s : List Char} (hm : ∀ p, p < s.length → m s p = none) :
    ∀ (fuel p : Nat), finditerGo m s fuel p = [] := by
  intro fuel
  induction fuel with
  | zero => intro p; rfl
  | succ fuel ih =>
    intro p
    unfold finditerGo
    split_ifs with hp
    · rw [hm p hp]
      exact ih (p + 1)
    · rfl

theorem finditer_eq_nil {α : Type} {m : List Char → Nat → Option (α × Nat)}
    {s : List Char} (hm : ∀ p, p < s.length → m s p = none) :
    finditer m s = [] :=
  finditerGo_eq_nil hm _ _

/-- C9: if every occurrence of `.intern` (the mandatory head of the
sensitive-type construction idiom) in a file starts at a position that the
comment-blanking projection blanks (that is, the idiom occurs only inside
line or block comments), then the quarantine scan reports zero hits for
that file, because all of its matching passes run on the projection. -/
theorem C9_comment_only_idiom :
    ∀ (rel : String) (text : List Char),
      (∀ p, p < text.length →
        List.isPrefixOf ".intern".data (text.drop p) = true →
        (stripRust text)[p]? = some ' ') →
      quarantineFileHits rel text = [] := by
  intro rel text hyp
  have hb : Blankish (stripRust text) text := blankish_stripRust text
  have hlen : (stripRust text).length = text.length := hb.length_eq
  have key : ∀ p, p < (stripRust text).length →
      ∀ r : List Char, True →
      List.isPrefixOf ".intern".data ((stripRust text).drop p) = true → False := by
    intro p hp r _ hpre
    have hpre' : List.isPrefixOf ".intern".data (text.drop p) = true :=
      (hb.drop p).isPrefixOf_transfer _ (by decide) hpre
    have hsp : (stripRust text)[p]? = some ' ' := hyp p (by omega) hpre'
    have hdot : (stripRust text)[p]? = some '.' := by
      rw [← List.head?_drop]
      cases hdrop : (stripRust text).drop p with
      | nil =>
        rw [hdrop] at hpre
        have hd : ".intern".data = '.' :: "intern".data := rfl
        rw [hd] at hpre
        exact Bool.noConfusion hpre
      | cons c cs =>
        rw [hdrop] at hpre
        have hd : ".intern".data = '.' :: "intern".data := rfl
        rw [hd] at hpre
        simp only [List.isPrefixOf, Bool.and_eq_true, beq_iff_eq] at hpre
        rw [hpre.1]
        rfl
    rw [hsp] at hdot
    simp at hdot
  have hdirect : finditer (atPos matchDirectIntern) (stripRust text) = [] := by
    apply finditer_eq_nil
    intro p hp
    unfold atPos
    cases hm : matchDirectIntern ((stripRust text).drop p) with
    | none => rfl
    | some r => exact absurd (matchDirectIntern_dotIntern hm) (fun hh => key p hp r trivial hh)
  have halias : ∀ a, finditer (atPos (matchAliasIntern a)) (stripRust text) = [] := by
    intro a
    apply finditer_eq_nil
    intro p hp
    unfold atPos
    cases hm : matchAliasIntern a ((stripRust text).drop p) with
    | none => rfl
    | some r => exact absurd (matchAliasIntern_dotIntern hm) (fun hh => key p hp r trivial hh)
  unfold quarantineFileHits
  simp only [hdirect, List.map_nil, List.nil_append]
  rw [List.flatMap_eq_nil_iff]
  intro l hl
  rw [halias l, List.map_nil]

/-- Witness for `C9_comment_only_idiom`: the construction idiom occurring
only inside a block comment yields zero hits. -/
theorem C9_comment_only_idiom_witness :
    (∀ p, p < "/* .intern(TypeData::X) */".data.length →
      List.isPrefixOf ".intern".data ("/* .intern(TypeData::X) */".data.drop p) = true →
      (stripRust "/* .intern(TypeData::X) */".data)[p]? = some ' ') ∧
    quarantineFileHits "solver.rs" "/* .intern(TypeData::X) */".data = [] := by
  refine ⟨by decide, ?_⟩
  exact C9_comment_only_idiom "solver.rs" "/* .intern(TypeData::X) */".data (by decide)

theorem charListLt_iff_lex :
    ∀ a b : List Char, charListLt a b = true ↔ List.Lex (· < ·) a b := by
  intro a
  induction a with
  | nil =>
    intro b
    cases b with
    | nil =>
      simp only [charListLt]
      exact ⟨fun h => Bool.noConfusion h, fun h => by cases h⟩
    | cons y bs =>
      simp only [charListLt]
      exact ⟨fun _ => List.Lex.nil, fun _ => trivial⟩
  | cons x as ih =>
    intro b
    cases b with
    | nil =>
      simp only [charListLt]
      exact ⟨fun h => Bool.noConfusion h, fun h => by cases h⟩
    | cons y bs =>
      simp only [charListLt]
      by_cases hxy : x < y
      · rw [if_pos hxy]
        exact ⟨fun _ => List.Lex.rel hxy, fun _ => rfl⟩
      · rw [if_neg hxy]
        by_cases hyx : y < x
        · rw [if_pos hyx]
          constructor
          · intro h; exact Bool.noConfusion h
          · intro h
            cases h with
            | cons h => exact absurd hyx (lt_irrefl _)
            | rel h => exact absurd h hxy
        · rw [if_neg hyx]
          have hx : x = y := le_antisymm (not_lt.mp hyx) (not_lt.mp hxy)
          subst hx
          constructor
          · intro h; exact List.Lex.cons ((ih bs).mp h)
          · intro h
            cases h with
            | cons h => exact (ih bs).mpr h
            | rel h => exact absurd h (lt_irrefl _)

theorem strLeRel_iff (a b : String) : strLeRel a b ↔ a ≤ b := by
  unfold strLeRel
  rw [Bool.or_eq_true, beq_iff_eq, charListLt_iff_lex, String.le_iff_toList_le]
  show _ ↔ (a.toList = b.toList ∨ List.Lex (· < ·) a.toList b.toList)
  constructor
  · rintro (h | h)
    · exact Or.inr h
    · exact Or.inl (congrArg String.data h)
  · rintro (h | h)
    · exact Or.inr (String.ext h)
    · exact Or.inl h

/-- C4: `scan_solver_typedata_quarantine` always returns a duplicate-free
list sorted in lexicographic order; and on a file in which one line contains
a construction statement reachable through two different spellings (the
direct pass on `TypeData` and the alias pass on `TD`), exactly one hit is
reported for that line. -/
theorem C4_quarantine_sorted_dedup :
    (∀ corpus : List (String × List Char),
      (scan_solver_typedata_quarantine corpus).Nodup ∧
      List.Sorted (· ≤ ·) (scan_solver_typedata_quarantine corpus)) ∧
    scan_solver_typedata_quarantine
      [("f.rs", "use TypeData as TD;\na.intern(TD::X); b.intern(TypeData::Y);\n".data)] =
      ["f.rs:2"] := by
  constructor
  · intro corpus
    unfold scan_solver_typedata_quarantine
    constructor
    · exact (List.perm_insertionSort _ _).symm.nodup (List.nodup_dedup _)
    · have htot : IsTotal String strLeRel := ⟨fun a b => by
        rw [strLeRel_iff, strLeRel_iff]
        exact le_total a b⟩
      have htrans : IsTrans String strLeRel := ⟨fun a b c hab hbc => by
        rw [strLeRel_iff] at *
        exact le_trans hab hbc⟩
      exact (@List.sorted_insertionSort String strLeRel _ htot htrans _).imp
        (fun h => (strLeRel_iff _ _).mp h)
  · decide

end ArchGuard
